import Mathlib

/-!
Shallow embedding of the `memio` package (`file.go`): an in-memory file
backed by a byte buffer `buf` and a shared read/write cursor `pos`.

Bytes are modelled as `Nat` (a Go `byte` is a value in `[0, 256)`; no
operation here depends on the bound), the buffer as a `List Nat`, and the
cursor as a `Nat` (the Go code stores it in a non-negative `int`).
Go capacity (`cap`) is an unobservable reallocation hint, so `slices.Grow`
is modelled as the identity on the observable state; bytes freshly exposed
by re-slicing past the logical length are modelled as `0` (the content of
freshly allocated Go storage).  Fallible operations return their Go error
as an `Option Err`.
-/

/-- Errors returned by the operations, mirroring the distinct Go sentinel
errors used in `file.go` (`io.EOF`, `io.ErrUnexpectedEOF`,
`io.ErrShortWrite`, `fs.ErrInvalid`).  Wrapping with `fmt.Errorf("...: %w", e)`
preserves the sentinel (checked via `errors.Is`), so it is dropped here. -/
inductive Err where
  | eof
  | unexpectedEOF
  | shortWrite
  | invalid
deriving DecidableEq

/-- `File` from `file.go`: `pos int; buf []byte`. -/
@[ext]
structure File where
  pos : Nat
  buf : List Nat
deriving DecidableEq

/-- `NewFile` returns a new File instance with the internal buffer set to `s`. -/
def NewFile (s : List Nat) : File := ⟨0, s⟩

/-- `Len` returns the length of the internal buffer. -/
def File.Len (f : File) : Nat := f.buf.length

/-- `Offset` returns the current read/write position as an `int64`. -/
def File.Offset (f : File) : Int := (f.pos : Int)

/-- `Reset`: `f.pos = 0; f.buf = f.buf[:0]`. -/
def File.Reset (_f : File) : File := ⟨0, []⟩

/-- `seekTarget` mirrors the `switch whence` computation of the absolute
seek position `sp` in `Seek` (`io.SeekStart = 0`, `io.SeekCurrent = 1`,
`io.SeekEnd = 2`; the `default` branch returns before using `sp`, so the
value in that case is irrelevant and fixed to `0`). -/
def File.seekTarget (f : File) (offset whence : Int) : Int :=
  if whence = 0 then offset
  else if whence = 1 then (f.pos : Int) + offset
  else if whence = 2 then (f.buf.length : Int) + offset
  else 0

/-- `Seek(offset, whence)`: computes `sp` per the origin, rejects an
unrecognized `whence` or a negative `sp` with `fs.ErrInvalid` (leaving the
state untouched), otherwise sets `pos = sp` and, when `sp` exceeds the
buffer length, grows the buffer to length `sp`
(`f.buf = slices.Grow(f.buf, f.pos)[:f.pos]`; the exposed hole bytes are
modelled as `0`). -/
def File.Seek (f : File) (offset whence : Int) : Int × Option Err × File :=
  if ¬ (whence = 0 ∨ whence = 1 ∨ whence = 2) then (0, some .invalid, f)
  else
    let sp := f.seekTarget offset whence
    if sp < 0 then (0, some .invalid, f)
    else
      let p := sp.toNat
      if p > f.buf.length then
        (sp, none, ⟨p, f.buf ++ List.replicate (p - f.buf.length) 0⟩)
      else (sp, none, ⟨p, f.buf⟩)

/-- `Truncate(n)`: `f.Seek(int64(n), io.SeekStart)` then `f.buf = f.buf[:n]`. -/
def File.Truncate (f : File) (n : Nat) : File :=
  let f1 := (f.Seek (n : Int) 0).2.2
  ⟨f1.pos, f1.buf.take n⟩

/-- `Rewind`: `f.pos = 0`. -/
def File.Rewind (f : File) : File := ⟨0, f.buf⟩

/-- `Read(p)` for a destination of length `k`: returns `io.EOF` when
`pos ≥ len(buf)`, otherwise copies `min(k, len(buf)-pos)` bytes starting at
`pos` (returned here as the list of bytes copied, the Go count being its
length) and advances `pos` by that count. -/
def File.Read (f : File) (k : Nat) : List Nat × Option Err × File :=
  if f.pos ≥ f.buf.length then ([], some .eof, f)
  else
    let d := (f.buf.drop f.pos).take k
    (d, none, ⟨f.pos + d.length, f.buf⟩)

/-- `ReadByte`: returns the byte at `pos` and advances by 1, or `io.EOF`
when `pos ≥ len(buf)`. -/
def File.ReadByte (f : File) : Option Nat × Option Err × File :=
  if f.pos ≥ f.buf.length then (none, some .eof, f)
  else (f.buf[f.pos]?, none, ⟨f.pos + 1, f.buf⟩)

/-- `bytes.IndexByte`: index of the first occurrence of `c`, or `none`
(Go: `-1`) when absent. -/
def indexByte : List Nat → Nat → Option Nat
  | [], _ => none
  | b :: rest, c => if b = c then some 0 else (indexByte rest c).map (· + 1)

/-- `readBytes(delim)`: `io.ErrUnexpectedEOF` when `pos ≥ len(buf)`;
otherwise scans `buf[pos:]` for `delim`: if found at relative index `i`,
returns `buf[pos : pos+i]` and sets `pos += i + 1` (skipping the
delimiter); if not found, returns `buf[pos:]`, sets `pos = len(buf)` and
also reports `io.ErrUnexpectedEOF`. -/
def File.readBytes (f : File) (delim : Nat) : List Nat × Option Err × File :=
  if f.pos ≥ f.buf.length then ([], some .unexpectedEOF, f)
  else
    match indexByte (f.buf.drop f.pos) delim with
    | some i => ((f.buf.drop f.pos).take i, none, ⟨f.pos + i + 1, f.buf⟩)
    | none => (f.buf.drop f.pos, some .unexpectedEOF, ⟨f.buf.length, f.buf⟩)

/-- `ReadBytes(delim)`: `readBytes` plus `append([]byte(nil), p...)` (an
independent copy — the value is unchanged) and error wrapping (which
preserves the sentinel). -/
def File.ReadBytes (f : File) (delim : Nat) : List Nat × Option Err × File :=
  f.readBytes delim

/-- `ReadString(delim)`: `readBytes` plus `string(p)` (a Go string is the
same byte sequence) and error wrapping. -/
def File.ReadString (f : File) (delim : Nat) : List Nat × Option Err × File :=
  f.readBytes delim

/-- `ReadFull(p)` for a destination of length `k`: `io.ErrUnexpectedEOF`
with count 0 when `pos ≥ len(buf)`; otherwise copies
`min(k, len(buf)-pos)` bytes (returned as the list copied), advances `pos`,
and reports `io.ErrUnexpectedEOF` when fewer than `k` bytes were copied. -/
def File.ReadFull (f : File) (k : Nat) : List Nat × Option Err × File :=
  if f.pos ≥ f.buf.length then ([], some .unexpectedEOF, f)
  else
    let d := (f.buf.drop f.pos).take k
    let f1 : File := ⟨f.pos + d.length, f.buf⟩
    if d.length < k then (d, some .unexpectedEOF, f1)
    else (d, none, f1)

/-- `binary.ByteOrder`: the two byte orders `binary.BigEndian` and
`binary.LittleEndian` from `encoding/binary`. -/
inductive ByteOrder where
  | big
  | little
deriving DecidableEq

/-- `o.PutUint16(s, n)`: the 2 bytes written for `n` in byte order `o`. -/
def putUint16 (o : ByteOrder) (v : Nat) : List Nat :=
  match o with
  | .big => [v / 2 ^ 8 % 256, v % 256]
  | .little => [v % 256, v / 2 ^ 8 % 256]

/-- `o.PutUint32(s, n)`: the 4 bytes written for `n` in byte order `o`. -/
def putUint32 (o : ByteOrder) (v : Nat) : List Nat :=
  match o with
  | .big => [v / 2 ^ 24 % 256, v / 2 ^ 16 % 256, v / 2 ^ 8 % 256, v % 256]
  | .little => [v % 256, v / 2 ^ 8 % 256, v / 2 ^ 16 % 256, v / 2 ^ 24 % 256]

/-- `o.PutUint64(s, n)`: the 8 bytes written for `n` in byte order `o`. -/
def putUint64 (o : ByteOrder) (v : Nat) : List Nat :=
  match o with
  | .big => [v / 2 ^ 56 % 256, v / 2 ^ 48 % 256, v / 2 ^ 40 % 256, v / 2 ^ 32 % 256,
      v / 2 ^ 24 % 256, v / 2 ^ 16 % 256, v / 2 ^ 8 % 256, v % 256]
  | .little => [v % 256, v / 2 ^ 8 % 256, v / 2 ^ 16 % 256, v / 2 ^ 24 % 256,
      v / 2 ^ 32 % 256, v / 2 ^ 40 % 256, v / 2 ^ 48 % 256, v / 2 ^ 56 % 256]

/-- `o.Uint32(p)`: decodes the first 4 bytes of `p` in byte order `o`
(Go panics on a shorter slice; every call site checks the read error
first, so the `0` default is unreachable there). -/
def toUint32 (o : ByteOrder) (p : List Nat) : Nat :=
  match o, p with
  | .big, b0 :: b1 :: b2 :: b3 :: _ => ((b0 * 256 + b1) * 256 + b2) * 256 + b3
  | .little, b0 :: b1 :: b2 :: b3 :: _ => ((b3 * 256 + b2) * 256 + b1) * 256 + b0
  | _, _ => 0

/-- `ReadUint32(o)`: `ReadFull` into a 4-byte array, then decode with
`o.Uint32`; on failure returns `0` with the (wrapped) error. -/
def File.ReadUint32 (f : File) (o : ByteOrder) : Nat × Option Err × File :=
  match f.ReadFull 4 with
  | (_, some e, f1) => (0, some e, f1)
  | (p, none, f1) => (toUint32 o p, none, f1)

/-- `Expand(n)`: `n += pos`; grow capacity; when `n > len(buf)` re-slice to
length `n` (the exposed bytes, unspecified in Go, are modelled as `0`);
set `pos = n`.  The returned view is `buf[pos₀:n]`; `fillView` below models
a caller filling it. -/
def File.Expand (f : File) (n : Nat) : File :=
  let m := f.pos + n
  if m > f.buf.length then ⟨m, f.buf ++ List.replicate (m - f.buf.length) 0⟩
  else ⟨m, f.buf⟩

/-- `Grow(n)`: `slices.Grow` only changes capacity, which is not part of
the observable state. -/
def File.Grow (f : File) (_n : Nat) : File := f

/-- A caller of `Expand(p.length)` copying `p` into the returned view:
the view is `buf[pos : pos+p.length]` of the expanded buffer, so the
result replaces exactly that segment with `p`. -/
def File.fillView (f : File) (p : List Nat) : File :=
  let f1 := f.Expand p.length
  ⟨f1.pos, f1.buf.take f.pos ++ p ++ f1.buf.drop (f.pos + p.length)⟩

/-- `Write(p)`: `copy(f.Expand(len(p)), p)`; returns `len(p), nil`. -/
def File.Write (f : File) (p : List Nat) : Nat × Option Err × File :=
  (p.length, none, f.fillView p)

/-- `WriteString(p)`: `Expand(len(p))` then `copy`; returns `len(p), nil`. -/
def File.WriteString (f : File) (p : List Nat) : Nat × Option Err × File :=
  (p.length, none, f.fillView p)

/-- `WriteByte(b)`: `s := Expand(1); s[0] = b`. -/
def File.WriteByte (f : File) (b : Nat) : Option Err × File :=
  (none, f.fillView [b])

/-- `WriteUint16(o, n)`: `o.PutUint16(f.Expand(2), n)`. -/
def File.WriteUint16 (f : File) (o : ByteOrder) (v : Nat) : File :=
  f.fillView (putUint16 o v)

/-- `WriteUint32(o, n)`: `o.PutUint32(f.Expand(4), n)`. -/
def File.WriteUint32 (f : File) (o : ByteOrder) (v : Nat) : File :=
  f.fillView (putUint32 o v)

/-- `WriteUint64(o, n)`: `o.PutUint64(f.Expand(8), n)`. -/
def File.WriteUint64 (f : File) (o : ByteOrder) (v : Nat) : File :=
  f.fillView (putUint64 o v)

/-- `PrintByte(b)`: `f.buf = append(f.buf[:f.pos], b); f.pos += 1`. -/
def File.PrintByte (f : File) (b : Nat) : File :=
  ⟨f.pos + 1, f.buf.take f.pos ++ [b]⟩

/-- `PrintBytes(s)`: `f.buf = append(f.buf[:f.pos], s...); f.pos += len(s)`. -/
def File.PrintBytes (f : File) (s : List Nat) : File :=
  ⟨f.pos + s.length, f.buf.take f.pos ++ s⟩

/-- `PrintString(a...)`: after a capacity-only `Grow`, appends each string
in turn: `f.buf = append(f.buf[:f.pos], s...); f.pos += len(s)`. -/
def File.PrintString (f : File) (a : List (List Nat)) : File :=
  a.foldl (fun g s => ⟨g.pos + s.length, g.buf.take g.pos ++ s⟩) f

/-- `WriteInt16(o, n)`: `f.WriteUint16(o, uint16(n))`; Go's `uint16(n)` is
the two's-complement image `n mod 2^16`. -/
def File.WriteInt16 (f : File) (o : ByteOrder) (n : Int) : File :=
  f.WriteUint16 o (n % 2 ^ 16).toNat

/-- `WriteInt32(o, n)`: `f.WriteUint32(o, uint32(n))`. -/
def File.WriteInt32 (f : File) (o : ByteOrder) (n : Int) : File :=
  f.WriteUint32 o (n % 2 ^ 32).toNat

/-- `WriteInt64(o, n)`: `f.WriteUint64(o, uint64(n))`. -/
def File.WriteInt64 (f : File) (o : ByteOrder) (n : Int) : File :=
  f.WriteUint64 o (n % 2 ^ 64).toNat

/-- `WriteFloat32(o, n)`: `f.WriteUint32(o, math.Float32bits(n))`.  The
IEEE-754 reinterpretation is done by the external `math` package, so the
model takes the resulting 32-bit pattern as the argument. -/
def File.WriteFloat32 (f : File) (o : ByteOrder) (bits : Nat) : File :=
  f.WriteUint32 o bits

/-- `WriteFloat64(o, n)`: `f.WriteUint64(o, math.Float64bits(n))`, with
the 64-bit pattern as the argument. -/
def File.WriteFloat64 (f : File) (o : ByteOrder) (bits : Nat) : File :=
  f.WriteUint64 o bits

/-- `utf8.AppendRune`'s encoding of the code point `r` (a Go `rune`,
i.e. `int32`): 1–4 bytes for a valid scalar value; surrogates and
out-of-range values encode `utf8.RuneError` (U+FFFD, bytes
`EF BF BD`), exactly as in Go's `unicode/utf8`. -/
def utf8EncodeRune (r : Int) : List Nat :=
  if 0 ≤ r ∧ r < 0x80 then [r.toNat]
  else if 0x80 ≤ r ∧ r < 0x800 then
    [0xC0 + r.toNat / 64, 0x80 + r.toNat % 64]
  else if 0x800 ≤ r ∧ r < 0x10000 ∧ ¬ (0xD800 ≤ r ∧ r < 0xE000) then
    [0xE0 + r.toNat / 4096, 0x80 + r.toNat / 64 % 64, 0x80 + r.toNat % 64]
  else if 0x10000 ≤ r ∧ r ≤ 0x10FFFF then
    [0xF0 + r.toNat / 262144, 0x80 + r.toNat / 4096 % 64,
     0x80 + r.toNat / 64 % 64, 0x80 + r.toNat % 64]
  else [0xEF, 0xBF, 0xBD]

/-- `PrintRune(r)`: `s := utf8.AppendRune(f.buf[:f.pos], r)`, i.e.
`s = buf[:pos] ++ encoding`; when `len(s) ≤ len(buf)` the append happened
in place inside the backing array (its capacity is at least `len(buf)`),
so `f.buf` keeps its length but now shows the encoding at
`[pos, pos+k)` — hence `s ++ f.buf.drop s.length` — and when
`len(s) > len(buf)` the code sets `f.buf = s`; either way
`f.pos = len(s)`. -/
def File.PrintRune (f : File) (r : Int) : File :=
  let s := f.buf.take f.pos ++ utf8EncodeRune r
  if s.length > f.buf.length then ⟨s.length, s⟩
  else ⟨s.length, s ++ f.buf.drop s.length⟩

/-- `PrintFunc(size, fn)`: reserves capacity, hands `fn` a zero-length
view of capacity `size` at `pos`, and lets it either fill it in place
(first branch: same backing array, `pos += len(t)`, `buf = buf[:pos]`) or
return a different slice (second branch: `buf = append(buf[:pos], t...)`).
Both branches observably yield the buffer truncated at the cursor with
`fn`'s output appended and the cursor at the new end; the model takes the
output bytes `t` of `fn` as the argument. -/
def File.PrintFunc (f : File) (_size : Nat) (t : List Nat) : File :=
  ⟨f.pos + t.length, f.buf.take f.pos ++ t⟩

/-- `Printf(format, args...)`: `fmt.Fprintf(f, format, args...)` renders
the text via the external `fmt` package and issues a single
`f.Write` with the rendered bytes; the model takes those bytes as the
argument. -/
def File.Printf (f : File) (rendered : List Nat) : File :=
  (f.Write rendered).2.2

/-- The per-call result of an `io.Reader` collaborator: the bytes it wrote
into the destination slice and the error returned alongside them
(`none` = keep reading). -/
inductive RErr where
  | eof
  | other
deriving DecidableEq

/-- The loop of `ReadFrom(r)`: each iteration grows capacity, reads a
chunk into `f.buf[f.pos:cap(f.buf)]` (overwriting from `pos`), re-slices
`f.buf = f.buf[:f.pos+m]`, adds `m` to the total, and stops on an error —
`io.EOF` is success, anything else is propagated.  `f.pos` is never
changed.  An exhausted chunk list models a collaborator that has not yet
returned an error; the loop would still be running, so the accumulator is
returned as-is for totality. -/
def readFromLoop : File → Nat → List (List Nat × Option RErr) → Nat × Option RErr × File
  | f, n, [] => (n, none, f)
  | f, n, (d, e) :: rest =>
    let f1 : File := ⟨f.pos, f.buf.take f.pos ++ d⟩
    let n1 := n + d.length
    match e with
    | some .eof => (n1, none, f1)
    | some .other => (n1, some .other, f1)
    | none => readFromLoop f1 n1 rest

/-- `ReadFrom(r)` with the collaborator `r` modelled as the list of its
successive `Read` results. -/
def File.ReadFrom (f : File) (src : List (List Nat × Option RErr)) :
    Nat × Option RErr × File :=
  readFromLoop f 0 src

/-! ### Helper lemmas about the growth/write primitives -/

theorem File.expand_pos (f : File) (n : Nat) : (f.Expand n).pos = f.pos + n := by
  simp only [File.Expand]
  split <;> rfl

theorem File.expand_length (f : File) (n : Nat) :
    (f.Expand n).buf.length = max f.buf.length (f.pos + n) := by
  simp only [File.Expand]
  split
  next h =>
    show (f.buf ++ List.replicate (f.pos + n - f.buf.length) 0).length = _
    simp only [List.length_append, List.length_replicate]
    omega
  next h =>
    show f.buf.length = _
    omega

theorem File.fillView_pos (f : File) (p : List Nat) :
    (f.fillView p).pos = f.pos + p.length := by
  simp only [File.fillView]
  exact f.expand_pos p.length

theorem File.fillView_length (f : File) (p : List Nat) :
    (f.fillView p).buf.length = max f.buf.length (f.pos + p.length) := by
  have h := f.expand_length p.length
  simp only [File.fillView, List.length_append, List.length_take, List.length_drop, h]
  omega

theorem File.fillView_segment (f : File) (p : List Nat) :
    ((f.fillView p).buf.drop f.pos).take p.length = p := by
  have h := f.expand_length p.length
  have hT : ((f.Expand p.length).buf.take f.pos).length = f.pos := by
    rw [List.length_take, h]
    omega
  simp only [File.fillView]
  rw [List.append_assoc, List.drop_left' hT, List.take_left]

theorem putUint16_length (o : ByteOrder) (v : Nat) : (putUint16 o v).length = 2 := by
  cases o <;> rfl

theorem putUint32_length (o : ByteOrder) (v : Nat) : (putUint32 o v).length = 4 := by
  cases o <;> rfl

theorem putUint64_length (o : ByteOrder) (v : Nat) : (putUint64 o v).length = 8 := by
  cases o <;> rfl

theorem File.printString_of_length_le (t : List (List Nat)) (g : File)
    (h : g.buf.length ≤ g.pos) :
    g.PrintString t = ⟨g.pos + (t.map List.length).sum, g.buf ++ t.flatten⟩ := by
  induction t generalizing g with
  | nil =>
    simp only [File.PrintString, List.foldl_nil, List.map_nil, List.sum_nil, Nat.add_zero,
      List.flatten_nil, List.append_nil]
  | cons s t ih =>
    simp only [File.PrintString, List.foldl_cons] at ih ⊢
    rw [List.take_of_length_le h]
    rw [ih ⟨g.pos + s.length, g.buf ++ s⟩ (by simp; omega)]
    ext
    · simp
      omega
    · simp

theorem File.printString_cons (f : File) (s : List Nat) (t : List (List Nat)) :
    f.PrintString (s :: t) =
      ⟨f.pos + (s.length + (t.map List.length).sum),
       f.buf.take f.pos ++ (s ++ t.flatten)⟩ := by
  simp only [File.PrintString, List.foldl_cons]
  have h1 : (File.mk (f.pos + s.length) (f.buf.take f.pos ++ s)).buf.length
      ≤ f.pos + s.length := by
    simp only [List.length_append, List.length_take]
    omega
  have h2 := File.printString_of_length_le t ⟨f.pos + s.length, f.buf.take f.pos ++ s⟩ h1
  simp only [File.PrintString] at h2
  rw [h2]
  ext
  · simp
    omega
  · simp

theorem drop_take_append (l m : List Nat) (q : Nat) (h : q ≤ l.length) :
    (l.take q ++ m).drop q = m :=
  List.drop_left' (by rw [List.length_take]; omega)

theorem read_err_eq (g : File) (k : Nat) :
    (g.Read k).2.1 = if g.buf.length ≤ g.pos then some Err.eof else none := by
  simp only [File.Read]
  split
  next h => rfl
  next h => rfl

theorem read_err_of_iff (g : File) (k : Nat) (c : Prop) [Decidable c]
    (hiff : g.buf.length ≤ g.pos ↔ c) :
    (g.Read k).2.1 = if c then some Err.eof else none := by
  rw [read_err_eq]
  by_cases hc : c
  · rw [if_pos (hiff.mpr hc), if_pos hc]
  · rw [if_neg fun hx => hc (hiff.mp hx), if_neg hc]

theorem File.printRune_pos (f : File) (r : Int) (h : f.pos ≤ f.buf.length) :
    (f.PrintRune r).pos = f.pos + (utf8EncodeRune r).length := by
  have hs : (f.buf.take f.pos ++ utf8EncodeRune r).length
      = f.pos + (utf8EncodeRune r).length := by
    rw [List.length_append, List.length_take]
    omega
  simp only [File.PrintRune]
  split
  next hgt => exact hs
  next hle => exact hs

theorem File.printRune_length (f : File) (r : Int) (h : f.pos ≤ f.buf.length) :
    (f.PrintRune r).buf.length
      = max f.buf.length (f.pos + (utf8EncodeRune r).length) := by
  simp only [File.PrintRune]
  split
  next hgt =>
    show (f.buf.take f.pos ++ utf8EncodeRune r).length = _
    rw [List.length_append, List.length_take] at hgt ⊢
    omega
  next hle =>
    show ((f.buf.take f.pos ++ utf8EncodeRune r)
        ++ f.buf.drop (f.buf.take f.pos ++ utf8EncodeRune r).length).length = _
    simp only [List.length_append, List.length_take] at hle
    simp only [List.length_append, List.length_take, List.length_drop]
    omega

theorem File.printRune_segment (f : File) (r : Int) (h : f.pos ≤ f.buf.length) :
    ((f.PrintRune r).buf.drop f.pos).take (utf8EncodeRune r).length
      = utf8EncodeRune r := by
  simp only [File.PrintRune]
  split
  next hgt =>
    show ((f.buf.take f.pos ++ utf8EncodeRune r).drop f.pos).take _ = _
    rw [drop_take_append f.buf (utf8EncodeRune r) f.pos h]
    exact List.take_of_length_le (le_refl _)
  next hle =>
    show (((f.buf.take f.pos ++ utf8EncodeRune r)
        ++ f.buf.drop (f.buf.take f.pos ++ utf8EncodeRune r).length).drop
          f.pos).take _ = _
    rw [List.append_assoc, drop_take_append f.buf _ f.pos h, List.take_left]

theorem File.printString_pos (f : File) (a : List (List Nat)) :
    (f.PrintString a).pos = f.pos + (a.map List.length).sum := by
  cases a with
  | nil => simp [File.PrintString]
  | cons s t =>
    rw [File.printString_cons]
    simp

theorem File.printString_buf (f : File) (a : List (List Nat)) :
    (f.PrintString a).buf
      = if a = [] then f.buf else f.buf.take f.pos ++ a.flatten := by
  cases a with
  | nil =>
    rw [if_pos rfl]
    rfl
  | cons s t =>
    rw [File.printString_cons, if_neg (by simp)]
    simp

/-! ### Claim theorems -/

/-- C3: for every buffer state, offset and recognized origin
(`0` = start, `1` = current, `2` = end), when the computed absolute target
`sp` (start: `offset`; current: `cursor + offset`; end: `length + offset`)
is non-negative, `Seek` returns `sp` with no error, sets the cursor to
`sp`, and the logical length becomes `max (old length) sp` — in particular
seeking to any `p` greater than the logical length makes the length
exactly `p`. -/
theorem seek_spec (f : File) (offset whence : Int)
    (hw : whence = 0 ∨ whence = 1 ∨ whence = 2)
    (hsp : 0 ≤ f.seekTarget offset whence) :
    f.seekTarget offset 0 = offset
    ∧ f.seekTarget offset 1 = (f.pos : Int) + offset
    ∧ f.seekTarget offset 2 = (f.buf.length : Int) + offset
    ∧ (f.Seek offset whence).1 = f.seekTarget offset whence
    ∧ (f.Seek offset whence).2.1 = none
    ∧ (f.Seek offset whence).2.2.pos = (f.seekTarget offset whence).toNat
    ∧ (f.Seek offset whence).2.2.buf.length
        = max f.buf.length (f.seekTarget offset whence).toNat := by
  refine ⟨rfl, rfl, by simp [File.seekTarget], ?_⟩
  simp only [File.Seek]
  rw [if_neg (not_not_intro hw), if_neg (by omega)]
  split
  next h =>
    refine ⟨rfl, rfl, rfl, ?_⟩
    show (f.buf ++ List.replicate _ 0).length = _
    simp only [List.length_append, List.length_replicate]
    omega
  next h =>
    refine ⟨rfl, rfl, rfl, ?_⟩
    show f.buf.length = _
    omega

/-- Witness for C3: seeking to absolute position 7 in a 2-byte file. -/
theorem seek_spec_witness :
    (File.Seek ⟨1, [5, 6]⟩ 7 0).1 = File.seekTarget ⟨1, [5, 6]⟩ 7 0
    ∧ (File.Seek ⟨1, [5, 6]⟩ 7 0).2.1 = none
    ∧ (File.Seek ⟨1, [5, 6]⟩ 7 0).2.2.pos = (File.seekTarget ⟨1, [5, 6]⟩ 7 0).toNat
    ∧ (File.Seek ⟨1, [5, 6]⟩ 7 0).2.2.buf.length
        = max 2 (File.seekTarget ⟨1, [5, 6]⟩ 7 0).toNat := by
  have h := seek_spec ⟨1, [5, 6]⟩ 7 0 (Or.inl rfl) (by decide)
  exact ⟨h.2.2.2.1, h.2.2.2.2.1, h.2.2.2.2.2.1, h.2.2.2.2.2.2⟩

/-- C6: `Seek` with an unrecognized origin, or with a non-negative origin
whose computed absolute target is negative, returns `fs.ErrInvalid` (with
offset 0) and leaves the file — cursor and buffer — unchanged. -/
theorem seek_invalid_spec (f : File) (offset whence : Int)
    (h : ¬ (whence = 0 ∨ whence = 1 ∨ whence = 2)
      ∨ f.seekTarget offset whence < 0) :
    f.Seek offset whence = (0, some Err.invalid, f) := by
  simp only [File.Seek]
  rcases h with h | h
  · rw [if_pos h]
  · by_cases hw : whence = 0 ∨ whence = 1 ∨ whence = 2
    · rw [if_neg (not_not_intro hw), if_pos h]
    · rw [if_pos hw]

/-- Witness for C6: an unrecognized origin `5`, and a negative target via
offset `-3` from the start, both fail and leave the file unchanged. -/
theorem seek_invalid_spec_witness :
    File.Seek ⟨1, [5, 6]⟩ 0 5 = (0, some Err.invalid, ⟨1, [5, 6]⟩)
    ∧ File.Seek ⟨1, [5, 6]⟩ (-3) 0 = (0, some Err.invalid, ⟨1, [5, 6]⟩) :=
  ⟨seek_invalid_spec ⟨1, [5, 6]⟩ 0 5 (Or.inl (by decide)),
   seek_invalid_spec ⟨1, [5, 6]⟩ (-3) 0 (Or.inr (by decide))⟩

/-- C9: `Reset` produces exactly the state of `Truncate 0` (cursor and
logical length both 0), and `Reset` is idempotent. -/
theorem reset_spec (f : File) :
    f.Reset = f.Truncate 0
    ∧ f.Reset.Reset = f.Reset
    ∧ f.Reset.pos = 0
    ∧ f.Reset.buf.length = 0 := by
  refine ⟨?_, rfl, rfl, rfl⟩
  simp [File.Reset, File.Truncate, File.Seek, File.seekTarget]

/-- C10: `ReadFull` with a destination of length `k` fails with
`io.ErrUnexpectedEOF` exactly when the cursor is at or beyond the logical
length or fewer than `k` bytes remain; the count it returns is always
`min k (length - cursor)` — so with `k = 0` it still fails whenever
`cursor ≥ length` but succeeds with count 0 when `cursor < length`. -/
theorem readFull_spec (f : File) (k : Nat) :
    ((f.ReadFull k).2.1 = some Err.unexpectedEOF
      ↔ f.buf.length ≤ f.pos ∨ f.buf.length - f.pos < k)
    ∧ (f.ReadFull k).1.length = min k (f.buf.length - f.pos)
    ∧ ((f.ReadFull k).2.1 = none
      ∨ (f.ReadFull k).2.1 = some Err.unexpectedEOF) := by
  simp only [File.ReadFull]
  by_cases h : f.buf.length ≤ f.pos
  · rw [if_pos h]
    refine ⟨by simp [h], ?_, by simp⟩
    show ([] : List Nat).length = _
    simp
    omega
  · rw [if_neg (by omega)]
    have hd : ((f.buf.drop f.pos).take k).length = min k (f.buf.length - f.pos) := by
      simp
    split
    next hlt =>
      rw [hd] at hlt
      refine ⟨by simp [h]; omega, hd, by simp⟩
    next hge =>
      rw [hd] at hge
      refine ⟨by simp [h]; omega, hd, by simp⟩

/-- C1 (counterexample): writing `[9]` at cursor 0 into the two-byte
buffer `[7, 8]` leaves the cursor at 1 but the logical length at 2, so a
write-style operation does not always leave the cursor equal to the new
logical length. -/
theorem write_cursor_ne_length_cex :
    ¬ ((File.Write ⟨0, [7, 8]⟩ [9]).2.2.pos
        = (File.Write ⟨0, [7, 8]⟩ [9]).2.2.buf.length) := by
  decide

/-- C1 (amended): immediately after each write-style operation the cursor
equals the previous cursor plus the number of bytes written, and the bytes
in `[cursor − written, cursor)` are exactly the written content.  The new
logical length is `max (previous length) (new cursor)` for the overwriting
writers — `Write`, `WriteString`, `WriteByte`, the typed numeric writers,
`Printf`, `PrintRune` and `Expand` — so for these the cursor equals the
new logical length exactly when the written data reaches to or past the
previous end; the truncating appends `PrintByte`, `PrintBytes`,
`PrintString` with at least one argument, and `PrintFunc` cut the buffer
at the previous cursor before appending, so for them the new logical
length always equals the new cursor, while `PrintString` with no
arguments writes nothing and leaves the state unchanged. -/
theorem write_ops_cursor_spec (f : File) (p t : List Nat) (b : Nat)
    (o : ByteOrder) (v : Nat) (iv : Int) (bits : Nat) (r : Int)
    (a : List (List Nat)) (sz n : Nat) (h : f.pos ≤ f.buf.length) :
    ((f.Write p).2.2.pos = f.pos + p.length
      ∧ (f.Write p).2.2.buf.length = max f.buf.length (f.pos + p.length)
      ∧ ((f.Write p).2.2.buf.drop f.pos).take p.length = p)
    ∧ ((f.WriteString p).2.2.pos = f.pos + p.length
      ∧ (f.WriteString p).2.2.buf.length = max f.buf.length (f.pos + p.length)
      ∧ ((f.WriteString p).2.2.buf.drop f.pos).take p.length = p)
    ∧ ((f.WriteByte b).2.pos = f.pos + 1
      ∧ (f.WriteByte b).2.buf.length = max f.buf.length (f.pos + 1)
      ∧ ((f.WriteByte b).2.buf.drop f.pos).take 1 = [b])
    ∧ ((f.WriteUint16 o v).pos = f.pos + 2
      ∧ (f.WriteUint16 o v).buf.length = max f.buf.length (f.pos + 2)
      ∧ ((f.WriteUint16 o v).buf.drop f.pos).take 2 = putUint16 o v)
    ∧ ((f.WriteUint32 o v).pos = f.pos + 4
      ∧ (f.WriteUint32 o v).buf.length = max f.buf.length (f.pos + 4)
      ∧ ((f.WriteUint32 o v).buf.drop f.pos).take 4 = putUint32 o v)
    ∧ ((f.WriteUint64 o v).pos = f.pos + 8
      ∧ (f.WriteUint64 o v).buf.length = max f.buf.length (f.pos + 8)
      ∧ ((f.WriteUint64 o v).buf.drop f.pos).take 8 = putUint64 o v)
    ∧ ((f.WriteInt16 o iv).pos = f.pos + 2
      ∧ (f.WriteInt16 o iv).buf.length = max f.buf.length (f.pos + 2)
      ∧ ((f.WriteInt16 o iv).buf.drop f.pos).take 2
          = putUint16 o (iv % 2 ^ 16).toNat)
    ∧ ((f.WriteInt32 o iv).pos = f.pos + 4
      ∧ (f.WriteInt32 o iv).buf.length = max f.buf.length (f.pos + 4)
      ∧ ((f.WriteInt32 o iv).buf.drop f.pos).take 4
          = putUint32 o (iv % 2 ^ 32).toNat)
    ∧ ((f.WriteInt64 o iv).pos = f.pos + 8
      ∧ (f.WriteInt64 o iv).buf.length = max f.buf.length (f.pos + 8)
      ∧ ((f.WriteInt64 o iv).buf.drop f.pos).take 8
          = putUint64 o (iv % 2 ^ 64).toNat)
    ∧ ((f.WriteFloat32 o bits).pos = f.pos + 4
      ∧ (f.WriteFloat32 o bits).buf.length = max f.buf.length (f.pos + 4)
      ∧ ((f.WriteFloat32 o bits).buf.drop f.pos).take 4 = putUint32 o bits)
    ∧ ((f.WriteFloat64 o bits).pos = f.pos + 8
      ∧ (f.WriteFloat64 o bits).buf.length = max f.buf.length (f.pos + 8)
      ∧ ((f.WriteFloat64 o bits).buf.drop f.pos).take 8 = putUint64 o bits)
    ∧ ((f.Printf p).pos = f.pos + p.length
      ∧ (f.Printf p).buf.length = max f.buf.length (f.pos + p.length)
      ∧ ((f.Printf p).buf.drop f.pos).take p.length = p)
    ∧ ((f.PrintRune r).pos = f.pos + (utf8EncodeRune r).length
      ∧ (f.PrintRune r).buf.length
          = max f.buf.length (f.pos + (utf8EncodeRune r).length)
      ∧ ((f.PrintRune r).buf.drop f.pos).take (utf8EncodeRune r).length
          = utf8EncodeRune r)
    ∧ ((f.Expand n).pos = f.pos + n
      ∧ (f.Expand n).buf.length = max f.buf.length (f.pos + n))
    ∧ ((f.PrintByte b).pos = f.pos + 1
      ∧ (f.PrintByte b).buf.length = (f.PrintByte b).pos
      ∧ (f.PrintByte b).buf.drop f.pos = [b])
    ∧ ((f.PrintBytes p).pos = f.pos + p.length
      ∧ (f.PrintBytes p).buf.length = (f.PrintBytes p).pos
      ∧ (f.PrintBytes p).buf.drop f.pos = p)
    ∧ ((f.PrintFunc sz t).pos = f.pos + t.length
      ∧ (f.PrintFunc sz t).buf.length = (f.PrintFunc sz t).pos
      ∧ (f.PrintFunc sz t).buf.drop f.pos = t)
    ∧ ((f.PrintString a).pos = f.pos + (a.map List.length).sum
      ∧ (f.PrintString a).buf
          = (if a = [] then f.buf else f.buf.take f.pos ++ a.flatten)
      ∧ (a ≠ [] → (f.PrintString a).buf.length = (f.PrintString a).pos
          ∧ (f.PrintString a).buf.drop f.pos = a.flatten)) := by
  have W : ∀ q : List Nat, (f.fillView q).pos = f.pos + q.length
      ∧ (f.fillView q).buf.length = max f.buf.length (f.pos + q.length)
      ∧ ((f.fillView q).buf.drop f.pos).take q.length = q :=
    fun q => ⟨f.fillView_pos q, f.fillView_length q, f.fillView_segment q⟩
  have W2 : ∀ (q : List Nat) (w : Nat), q.length = w →
      (f.fillView q).pos = f.pos + w
      ∧ (f.fillView q).buf.length = max f.buf.length (f.pos + w)
      ∧ ((f.fillView q).buf.drop f.pos).take w = q := by
    intro q w hq
    have hW := W q
    rw [hq] at hW
    exact hW
  refine ⟨W p, W p, W2 [b] 1 rfl, W2 _ 2 (putUint16_length o v),
    W2 _ 4 (putUint32_length o v), W2 _ 8 (putUint64_length o v),
    W2 _ 2 (putUint16_length o _), W2 _ 4 (putUint32_length o _),
    W2 _ 8 (putUint64_length o _), W2 _ 4 (putUint32_length o bits),
    W2 _ 8 (putUint64_length o bits), W p,
    ⟨f.printRune_pos r h, f.printRune_length r h, f.printRune_segment r h⟩,
    ⟨f.expand_pos n, f.expand_length n⟩, ?_, ?_, ?_, ?_⟩
  · refine ⟨rfl, ?_, ?_⟩
    · show (f.buf.take f.pos ++ [b]).length = f.pos + 1
      rw [List.length_append, List.length_take]
      simp
      omega
    · exact drop_take_append f.buf [b] f.pos h
  · refine ⟨rfl, ?_, ?_⟩
    · show (f.buf.take f.pos ++ p).length = f.pos + p.length
      rw [List.length_append, List.length_take]
      omega
    · exact drop_take_append f.buf p f.pos h
  · refine ⟨rfl, ?_, ?_⟩
    · show (f.buf.take f.pos ++ t).length = f.pos + t.length
      rw [List.length_append, List.length_take]
      omega
    · exact drop_take_append f.buf t f.pos h
  · refine ⟨f.printString_pos a, f.printString_buf a, ?_⟩
    intro ha
    rw [f.printString_buf a, if_neg ha, f.printString_pos a]
    constructor
    · rw [List.length_append, List.length_take, List.length_flatten]
      omega
    · exact drop_take_append f.buf a.flatten f.pos h

/-- Witness for C1 (amended): the `Write` clause at a concrete state. -/
theorem write_ops_cursor_spec_witness :
    (File.Write ⟨0, [4]⟩ [3]).2.2.pos = 0 + [3].length
    ∧ (File.Write ⟨0, [4]⟩ [3]).2.2.buf.length = max [4].length (0 + [3].length)
    ∧ ((File.Write ⟨0, [4]⟩ [3]).2.2.buf.drop 0).take [3].length = [3] :=
  (write_ops_cursor_spec ⟨0, [4]⟩ [3] [] 5 ByteOrder.big 6 2 8 97 [] 1 7
    (by decide)).1

/-- C4 (counterexample): after writing `[9]` at cursor 0 into `[7, 8]`
the cursor is 1, and a read from there returns the remaining byte with no
error, not end-of-data. -/
theorem write_then_read_not_eof_cex :
    (File.Read (File.Write ⟨0, [7, 8]⟩ [9]).2.2 1).2.1 ≠ some Err.eof := by
  decide

/-- C4 (amended): a write followed immediately by a read at the resulting
cursor returns end-of-data (`io.EOF`) exactly when the operation left the
cursor at or past the logical end: always for the truncating appends
`PrintByte`, `PrintBytes`, `PrintString` with at least one argument, and
`PrintFunc`; and for the overwriting writers (`Write`, `WriteString`,
`WriteByte`, the typed numeric writers, `Printf`, `PrintRune`, `Expand`)
exactly when the written data reaches to or past the previous logical end
— in particular always when appending at the end; when an overwriting
write ends strictly before the previous logical end, bytes remain and the
read reports no error. -/
theorem write_read_eof_spec (f : File) (p t : List Nat) (b : Nat)
    (o : ByteOrder) (v : Nat) (iv : Int) (bits : Nat) (r : Int)
    (a : List (List Nat)) (sz n k : Nat) (h : f.pos ≤ f.buf.length) :
    (((f.Write p).2.2.Read k).2.1
      = if f.buf.length ≤ f.pos + p.length then some Err.eof else none)
    ∧ (((f.WriteString p).2.2.Read k).2.1
      = if f.buf.length ≤ f.pos + p.length then some Err.eof else none)
    ∧ (((f.WriteByte b).2.Read k).2.1
      = if f.buf.length ≤ f.pos + 1 then some Err.eof else none)
    ∧ (((f.WriteUint16 o v).Read k).2.1
      = if f.buf.length ≤ f.pos + 2 then some Err.eof else none)
    ∧ (((f.WriteUint32 o v).Read k).2.1
      = if f.buf.length ≤ f.pos + 4 then some Err.eof else none)
    ∧ (((f.WriteUint64 o v).Read k).2.1
      = if f.buf.length ≤ f.pos + 8 then some Err.eof else none)
    ∧ (((f.WriteInt16 o iv).Read k).2.1
      = if f.buf.length ≤ f.pos + 2 then some Err.eof else none)
    ∧ (((f.WriteInt32 o iv).Read k).2.1
      = if f.buf.length ≤ f.pos + 4 then some Err.eof else none)
    ∧ (((f.WriteInt64 o iv).Read k).2.1
      = if f.buf.length ≤ f.pos + 8 then some Err.eof else none)
    ∧ (((f.WriteFloat32 o bits).Read k).2.1
      = if f.buf.length ≤ f.pos + 4 then some Err.eof else none)
    ∧ (((f.WriteFloat64 o bits).Read k).2.1
      = if f.buf.length ≤ f.pos + 8 then some Err.eof else none)
    ∧ (((f.Printf p).Read k).2.1
      = if f.buf.length ≤ f.pos + p.length then some Err.eof else none)
    ∧ (((f.PrintRune r).Read k).2.1
      = if f.buf.length ≤ f.pos + (utf8EncodeRune r).length then some Err.eof
        else none)
    ∧ (((f.Expand n).Read k).2.1
      = if f.buf.length ≤ f.pos + n then some Err.eof else none)
    ∧ (((f.PrintByte b).Read k).2.1 = some Err.eof)
    ∧ (((f.PrintBytes p).Read k).2.1 = some Err.eof)
    ∧ (((f.PrintFunc sz t).Read k).2.1 = some Err.eof)
    ∧ (((f.PrintString (p :: a)).Read k).2.1 = some Err.eof)
    ∧ (((f.PrintString []).Read k).2.1
      = if f.buf.length ≤ f.pos then some Err.eof else none) := by
  have E : ∀ q : List Nat,
      ((f.fillView q).Read k).2.1
        = if f.buf.length ≤ f.pos + q.length then some Err.eof else none := by
    intro q
    refine read_err_of_iff _ k _ ?_
    rw [f.fillView_length q, f.fillView_pos q]
    omega
  have E2 : ∀ (q : List Nat) (w : Nat), q.length = w →
      ((f.fillView q).Read k).2.1
        = if f.buf.length ≤ f.pos + w then some Err.eof else none := by
    intro q w hq
    have hE := E q
    rw [hq] at hE
    exact hE
  refine ⟨E p, E p, E2 [b] 1 rfl, E2 _ 2 (putUint16_length o v),
    E2 _ 4 (putUint32_length o v), E2 _ 8 (putUint64_length o v),
    E2 _ 2 (putUint16_length o _), E2 _ 4 (putUint32_length o _),
    E2 _ 8 (putUint64_length o _), E2 _ 4 (putUint32_length o bits),
    E2 _ 8 (putUint64_length o bits), E p, ?_, ?_, ?_, ?_, ?_, ?_,
    read_err_eq f k⟩
  · refine read_err_of_iff _ k _ ?_
    rw [f.printRune_length r h, f.printRune_pos r h]
    omega
  · refine read_err_of_iff _ k _ ?_
    rw [f.expand_length n, f.expand_pos n]
    omega
  · rw [read_err_eq, if_pos (by
      show (f.buf.take f.pos ++ [b]).length ≤ f.pos + 1
      rw [List.length_append, List.length_take]
      show min f.pos f.buf.length + 1 ≤ f.pos + 1
      omega)]
  · rw [read_err_eq, if_pos (by
      show (f.buf.take f.pos ++ p).length ≤ f.pos + p.length
      rw [List.length_append, List.length_take]
      omega)]
  · rw [read_err_eq, if_pos (by
      show (f.buf.take f.pos ++ t).length ≤ f.pos + t.length
      rw [List.length_append, List.length_take]
      omega)]
  · rw [File.printString_cons, read_err_eq, if_pos (by
      show (f.buf.take f.pos ++ (p ++ a.flatten)).length
        ≤ f.pos + (p.length + (a.map List.length).sum)
      rw [List.length_append, List.length_take, List.length_append,
        List.length_flatten]
      omega)]

/-- Witness for C4 (amended): appending to an empty buffer then reading. -/
theorem write_read_eof_spec_witness :
    ((File.Write ⟨0, []⟩ [7]).2.2.Read 3).2.1 = some Err.eof := by
  have hw := (write_read_eof_spec ⟨0, []⟩ [7] [] 5 ByteOrder.big 6 2 8 97 [] 1 0
    3 (by decide)).1
  rw [hw]
  decide

/-- C7: writing any byte sequence `s` to a fresh empty file, seeking to
absolute position 0, then reading `s.length` bytes yields exactly `s`. -/
theorem write_seek_read_roundtrip (s : List Nat) :
    ((((NewFile []).Write s).2.2.Seek 0 0).2.2.Read s.length).1 = s := by
  have h1 : ((NewFile []).Write s).2.2 = ⟨s.length, s⟩ := by
    show File.fillView ⟨0, []⟩ s = _
    have hp := File.fillView_pos ⟨0, []⟩ s
    have hl := File.fillView_length ⟨0, []⟩ s
    have hs := File.fillView_segment ⟨0, []⟩ s
    simp at hp hl hs
    have hb : (File.fillView ⟨0, []⟩ s).buf = s :=
      calc (File.fillView ⟨0, []⟩ s).buf
          = ((File.fillView ⟨0, []⟩ s).buf).take s.length :=
            (List.take_of_length_le (le_of_eq hl)).symm
        _ = s := hs
    exact File.ext hp hb
  rw [h1]
  have h2 : (File.Seek ⟨s.length, s⟩ 0 0).2.2 = ⟨0, s⟩ := by
    simp [File.Seek, File.seekTarget]
  rw [h2]
  by_cases hs : s = []
  · subst hs
    rfl
  · have hlen : 0 < s.length := List.length_pos.mpr hs
    have hcond : ¬ ((File.mk 0 s).pos ≥ (File.mk 0 s).buf.length) := by
      show ¬ (s.length ≤ 0)
      omega
    simp only [File.Read]
    rw [if_neg hcond]
    show (s.drop 0).take s.length = s
    rw [List.drop_zero, List.take_of_length_le (le_refl _)]

/-- C2 (code bug): `ReadFrom` never advances the cursor, so each chunk
overwrites the previous one at the same position and the re-slice
`f.buf = f.buf[:f.pos+m]` on the final `(0, io.EOF)` read truncates the
data away: feeding the chunks `[1, 2, 3]` then `(0 bytes, EOF)` to an
empty file returns total 3 with success, yet the buffer is left empty
(length 0, not cursor + 3), contradicting the accumulate-at-cursor
contract of `io.ReaderFrom` that the method claims to implement. -/
theorem readFrom_drops_data :
    (NewFile []).ReadFrom [([1, 2, 3], none), ([], some RErr.eof)]
      = (3, none, ⟨0, []⟩)
    ∧ ¬ (((NewFile []).ReadFrom
          [([1, 2, 3], none), ([], some RErr.eof)]).2.2.buf.length = 0 + 3) := by
  exact ⟨by decide, by decide⟩

/-! ### Helper lemmas for the delimiter scan and the numeric round-trip -/

theorem indexByte_eq_none_iff (l : List Nat) (c : Nat) :
    indexByte l c = none ↔ c ∉ l := by
  induction l with
  | nil => simp [indexByte]
  | cons b t ih =>
    by_cases hb : b = c
    · subst hb
      simp [indexByte]
    · have hcb : c ≠ b := fun he => hb he.symm
      simp [indexByte, hb, Option.map_eq_none', ih, hcb]

theorem indexByte_mem (l : List Nat) (c : Nat) (h : c ∈ l) :
    indexByte l c = some (l.takeWhile (· != c)).length := by
  induction l with
  | nil => cases h
  | cons b t ih =>
    by_cases hb : b = c
    · subst hb
      simp [indexByte, List.takeWhile_cons]
    · have hc : c ∈ t := by
        cases List.mem_cons.mp h with
        | inl h1 => exact absurd h1.symm hb
        | inr h2 => exact h2
      simp [indexByte, hb, List.takeWhile_cons, ih hc]

theorem take_takeWhile_length (l : List Nat) (p : Nat → Bool) :
    l.take (l.takeWhile p).length = l.takeWhile p := by
  induction l with
  | nil => rfl
  | cons b t ih =>
    by_cases hb : p b
    · simp [List.takeWhile_cons, hb, ih]
    · simp [List.takeWhile_cons, hb]

theorem seek_eval (f : File) (offset whence : Int)
    (hw : whence = 0 ∨ whence = 1 ∨ whence = 2)
    (hsp : 0 ≤ f.seekTarget offset whence) :
    f.Seek offset whence
      = (f.seekTarget offset whence, none,
         ⟨(f.seekTarget offset whence).toNat,
          if (f.seekTarget offset whence).toNat > f.buf.length
          then f.buf
            ++ List.replicate ((f.seekTarget offset whence).toNat - f.buf.length) 0
          else f.buf⟩) := by
  simp only [File.Seek]
  rw [if_neg (not_not_intro hw), if_neg (by omega)]
  split
  next h => rfl
  next h => rfl

theorem toUint32_putUint32_big (v : Nat) (h : v < 2 ^ 32) :
    toUint32 .big (putUint32 .big v) = v := by
  simp only [toUint32, putUint32]
  omega

/-- C5: when the cursor is strictly inside the buffer, `ReadBytes delim`
and `ReadString delim` return the bytes strictly before the first
occurrence of `delim` in the remainder and advance the cursor past the
delimiter when it occurs, and otherwise return the whole remainder,
advance the cursor to the end and report the delimiter-not-found failure
(`io.ErrUnexpectedEOF`, distinct from `io.EOF`).  Concretely, on
`"abc\nref"`-style content `[97, 98, 99, 10, 100, 101, 102]` at position
0, `ReadString 10` yields `"abc"` leaving the cursor at 4, and the second
call yields `"def"` with the failure, leaving the cursor at the end. -/
theorem readBytes_spec (f : File) (delim : Nat) (h : f.pos < f.buf.length) :
    (delim ∈ f.buf.drop f.pos →
      f.ReadBytes delim
        = ((f.buf.drop f.pos).takeWhile (· != delim), none,
           ⟨f.pos + ((f.buf.drop f.pos).takeWhile (· != delim)).length + 1, f.buf⟩)
      ∧ f.ReadString delim
        = ((f.buf.drop f.pos).takeWhile (· != delim), none,
           ⟨f.pos + ((f.buf.drop f.pos).takeWhile (· != delim)).length + 1, f.buf⟩))
    ∧ (delim ∉ f.buf.drop f.pos →
      f.ReadBytes delim
        = (f.buf.drop f.pos, some Err.unexpectedEOF, ⟨f.buf.length, f.buf⟩)
      ∧ f.ReadString delim
        = (f.buf.drop f.pos, some Err.unexpectedEOF, ⟨f.buf.length, f.buf⟩))
    ∧ File.ReadString ⟨0, [97, 98, 99, 10, 100, 101, 102]⟩ 10
        = ([97, 98, 99], none, ⟨4, [97, 98, 99, 10, 100, 101, 102]⟩)
    ∧ File.ReadString ⟨4, [97, 98, 99, 10, 100, 101, 102]⟩ 10
        = ([100, 101, 102], some Err.unexpectedEOF,
           ⟨7, [97, 98, 99, 10, 100, 101, 102]⟩) := by
  refine ⟨?_, ?_, by decide, by decide⟩
  · intro hmem
    have hfound : f.readBytes delim
        = ((f.buf.drop f.pos).takeWhile (· != delim), none,
           ⟨f.pos + ((f.buf.drop f.pos).takeWhile (· != delim)).length + 1,
            f.buf⟩) := by
      simp only [File.readBytes]
      rw [if_neg (by omega), indexByte_mem _ _ hmem]
      show ((f.buf.drop f.pos).take
          ((f.buf.drop f.pos).takeWhile (· != delim)).length, none,
          (⟨f.pos + ((f.buf.drop f.pos).takeWhile (· != delim)).length + 1,
           f.buf⟩ : File)) = _
      rw [take_takeWhile_length]
    exact ⟨hfound, hfound⟩
  · intro hmem
    have hnone : f.readBytes delim
        = (f.buf.drop f.pos, some Err.unexpectedEOF, ⟨f.buf.length, f.buf⟩) := by
      simp only [File.readBytes]
      rw [if_neg (by omega), (indexByte_eq_none_iff _ _).mpr hmem]
    exact ⟨hnone, hnone⟩

/-- Witness for C5: reading up to delimiter 9 in `[5, 9, 7]` from 0. -/
theorem readBytes_spec_witness :
    File.ReadBytes ⟨0, [5, 9, 7]⟩ 9 = ([5], none, ⟨2, [5, 9, 7]⟩) := by
  have h := ((readBytes_spec ⟨0, [5, 9, 7]⟩ 9 (by decide)).1 (by decide)).1
  rw [h]
  decide

/-- C8: writing a 32-bit value big-endian, seeking back 4 bytes, and
reading big-endian reproduces the value exactly, for every buffer state
and every representable value. -/
theorem uint32_roundtrip (f : File) (v : Nat) (h : v < 2 ^ 32) :
    (((f.WriteUint32 .big v).Seek (-4) 1).2.2.ReadUint32 .big).1 = v
    ∧ (((f.WriteUint32 .big v).Seek (-4) 1).2.2.ReadUint32 .big).2.1 = none := by
  have hgp := f.fillView_pos (putUint32 .big v)
  have hgl := f.fillView_length (putUint32 .big v)
  have hseg := f.fillView_segment (putUint32 .big v)
  rw [putUint32_length] at hgp hgl hseg
  have ht : (f.fillView (putUint32 .big v)).seekTarget (-4) 1 = (f.pos : Int) := by
    simp only [File.seekTarget]
    norm_num
    rw [hgp]
    push_cast
    ring
  have h2 : ((f.fillView (putUint32 .big v)).Seek (-4) 1).2.2
      = ⟨f.pos, (f.fillView (putUint32 .big v)).buf⟩ := by
    rw [seek_eval _ _ _ (Or.inr (Or.inl rfl))
      (by rw [ht]; exact Int.natCast_nonneg _)]
    show File.mk _ _ = _
    rw [ht]
    simp only [Int.toNat_natCast]
    rw [if_neg (by omega)]
  have hrf : File.ReadFull ⟨f.pos, (f.fillView (putUint32 .big v)).buf⟩ 4
      = (putUint32 .big v, none,
         ⟨f.pos + 4, (f.fillView (putUint32 .big v)).buf⟩) := by
    simp only [File.ReadFull]
    rw [if_neg (by show ¬ ((f.fillView (putUint32 .big v)).buf.length ≤ f.pos); omega)]
    rw [hseg, putUint32_length]
    rw [if_neg (by omega)]
  show ((File.ReadUint32 ((f.fillView (putUint32 .big v)).Seek (-4) 1).2.2 .big).1 = v)
    ∧ ((File.ReadUint32 ((f.fillView (putUint32 .big v)).Seek (-4) 1).2.2 .big).2.1 = none)
  rw [h2]
  simp only [File.ReadUint32]
  rw [hrf]
  exact ⟨toUint32_putUint32_big v h, rfl⟩

/-- Witness for C8: the value `0x01020304` written and read back at a
non-trivial starting state. -/
theorem uint32_roundtrip_witness :
    ((((File.mk 1 [9]).WriteUint32 .big 16909060).Seek (-4) 1).2.2.ReadUint32
        .big).1 = 16909060
    ∧ ((((File.mk 1 [9]).WriteUint32 .big 16909060).Seek (-4) 1).2.2.ReadUint32
        .big).2.1 = none :=
  uint32_roundtrip ⟨1, [9]⟩ 16909060 (by norm_num)
